import Mathlib

/-!
Verification development for the hiltnlp package (src/hiltnlp/__init__.py).

The package segments a speaker-annotated transcript, given as sentence-typed
text spans, into speaker turns.  We embed the relevant Python functions as
Lean functions:

* sentence spans become the structure Sentence (offsets, text, feature map);
* the feature map is an association list, with the external collaborator's
  add_feature operation modelled from the spec (section 4.3 and section 6);
* fallible Python code (KeyError on a missing feature, IndexError on reading
  sentences[0] of an empty list, TypeError in the Turn link setters, a
  feature conflict with overwrite disabled) returns Except PipeError;
* the doubly linked traversal produced by gatenlphiltlab.dlink is represented
  positionally: the list order of the sorted sentences is the link order, and
  the loop state of tag_turns carries the one-back and two-back sentences.

Python functions keep their source names (tag_speakers, tag_turns, get_turns,
get_speaker, is_turn_head, get_grammatical_person, ...).  Definitions whose
name starts with spec are written from the specification text, for comparison
with the code-derived definitions.
-/

/-- Errors the embedded code can signal: IndexError (reading sentences[0] of
an empty list in Turn.__init__), KeyError (reading an absent feature),
a conflicting feature write with overwrite disabled, and TypeError (the
Turn.next / Turn.previous setters). -/
inductive PipeError where
  | indexError
  | keyError
  | featureConflict
  | typeError
deriving DecidableEq, Repr

/-- A sentence-typed text span: start and end offsets, covered text, and a
mutable feature map (name-value pairs), as consumed by hiltnlp from the
annotation-file collaborator. -/
structure Sentence where
  start_node : Nat
  end_node : Nat
  text : String
  features : List (String × String)
deriving DecidableEq, Repr

/-- The feature-independent identity of a sentence: offsets and text.  The
pipeline only ever adds features, so this projection is preserved. -/
def coreOf (s : Sentence) : Nat × Nat × String :=
  (s.start_node, s.end_node, s.text)

/-- First-match lookup in a feature map. -/
def lookupFeature (fs : List (String × String)) (name : String) : Option String :=
  match fs with
  | [] => none
  | (n, v) :: rest => if n = name then some v else lookupFeature rest name

/-- Replace the value of the first feature with the given name. -/
def setFeature (fs : List (String × String)) (name value : String) : List (String × String) :=
  match fs with
  | [] => []
  | (n, v) :: rest =>
      if n = name then (n, value) :: rest else (n, v) :: setFeature rest name value

/-- Modelled from the spec: the annotation-file collaborator's operation
"add/overwrite a named feature on a span, honoring an overwrite flag"
(gatenlphiltlab.Annotation.add_feature, not part of this repository).  Per
spec section 4.3, when overwrite is false and a conflicting feature already
exists the operation fails rather than silently diverge; writing an equal
value is not a conflict. -/
def addFeature (s : Sentence) (name value : String) (overwrite : Bool) :
    Except PipeError Sentence :=
  match lookupFeature s.features name with
  | none => Except.ok { s with features := s.features ++ [(name, value)] }
  | some old =>
      if overwrite then Except.ok { s with features := setFeature s.features name value }
      else if old = value then Except.ok s
      else Except.error PipeError.featureConflict

/-- hiltnlp.get_speaker: the value of the sentence feature named Speaker;
none models the KeyError raised when the feature is absent. -/
def get_speaker (s : Sentence) : Option String :=
  lookupFeature s.features "Speaker"

/-- hiltnlp.is_turn_head: whether the Turn_head feature has the string value
"True"; none models the KeyError raised when the feature is absent. -/
def is_turn_head (s : Sentence) : Option Bool :=
  (lookupFeature s.features "Turn_head").map (fun v => v = "True")

/-- Lower-casing of a character list, modelling Python str.lower on the
texts appearing here. -/
def lowerChars (cs : List Char) : List Char :=
  cs.map Char.toLower

/-- Python substring containment (needle in haystack) on character lists. -/
def hasSubstr (needle : List Char) : List Char → Bool
  | [] => needle.isEmpty
  | c :: rest => List.isPrefixOf needle (c :: rest) || hasSubstr needle rest

/-- hiltnlp.tag_speakers' list of media file extensions. -/
def media_file_extensions : List String :=
  [".mp3", ".mp4", ".aiff", ".raw", ".wav", ".flac"]

/-- Python: any(file_extension in text.lower() for file_extension in
media_file_extensions). -/
def isMediaRef (text : String) : Bool :=
  media_file_extensions.any (fun ext => hasSubstr ext.data (lowerChars text.data))

/-- Characters of a text up to (excluding) the first colon. -/
def upToColon : List Char → List Char
  | [] => []
  | c :: cs => if c = ':' then [] else c :: upToColon cs

/-- Python: text.split(":")[0], the substring before the first colon. -/
def beforeColon (text : String) : String :=
  String.mk (upToColon text.data)

/-- Python: ":" in text. -/
def hasColon (text : String) : Bool :=
  text.data.contains ':'

/-- Lower-casing of a string. -/
def lowerString (text : String) : String :=
  String.mk (lowerChars text.data)

/-- hiltnlp.first_reference_words. -/
def first_reference_words : List String :=
  ["i", "me", "my", "mine", "myself", "we", "us", "our", "ours", "ourselves"]

/-- hiltnlp.second_reference_words. -/
def second_reference_words : List String :=
  ["you", "your", "yours", "yourself", "yourselves"]

/-- hiltnlp.third_reference_words. -/
def third_reference_words : List String :=
  ["he", "him", "himself", "his", "she", "her", "herself", "hers"]

/-- hiltnlp.is_explicit_person_reference, on the text of the token:
membership of the lower-cased text in the concatenation of the three
reference word lists. -/
def is_explicit_person_reference (text : String) : Bool :=
  (first_reference_words ++ second_reference_words ++ third_reference_words).contains
    (lowerString text)

/-- hiltnlp.get_grammatical_person, on the text of the token: 1, 2 or 3 after
the three membership tests, falling through to Python's implicit None when
the text is in none of the lists. -/
def get_grammatical_person (text : String) : Option Nat :=
  if first_reference_words.contains (lowerString text) then some 1
  else if second_reference_words.contains (lowerString text) then some 2
  else if third_reference_words.contains (lowerString text) then some 3
  else none

/-- hiltnlp.Turn, as assembled by get_turns: the sentence run and the speaker
fixed at construction.  The next and previous links that dlink later sets are
represented by adjacency in the returned turn list, and the sentence-to-turn
back reference by turnOf below; the setter type check is modelled separately
on PyVal. -/
structure Turn where
  sentences : List Sentence
  speaker : String
deriving DecidableEq, Repr

/-- Turn.__init__: stores the sentences and reads the speaker of
sentences[0]; reading sentences[0] of an empty list is an IndexError, and a
missing Speaker feature a KeyError. -/
def mkTurn (sentences : List Sentence) : Except PipeError Turn :=
  match sentences with
  | [] => Except.error PipeError.indexError
  | s :: _ =>
      match get_speaker s with
      | none => Except.error PipeError.keyError
      | some spk => Except.ok { sentences := sentences, speaker := spk }

/-- Sort key of the pipeline: ascending start offset. -/
def sentLE (a b : Sentence) : Prop :=
  a.start_node ≤ b.start_node

instance : DecidableRel sentLE :=
  fun a b => Nat.decLe a.start_node b.start_node

instance : IsTotal Sentence sentLE :=
  ⟨fun a b => Nat.le_total a.start_node b.start_node⟩

instance : IsTrans Sentence sentLE :=
  ⟨fun _ _ _ h1 h2 => Nat.le_trans h1 h2⟩

/-- Python: sorted(sentences, key=lambda x: x.start_node); a stable sort by
start offset. -/
def sortSents (l : List Sentence) : List Sentence :=
  List.insertionSort sentLE l

/-- The scanning loop of hiltnlp.tag_speakers, carrying the running
speaker_tag state: a media-reference sentence receives Speaker "None" and
leaves the state untouched; otherwise a colon updates the state to the text
before the first colon, and the sentence receives the current state. -/
def tagSpeakersGo (overwrite : Bool) (speaker_tag : String) :
    List Sentence → Except PipeError (List Sentence)
  | [] => Except.ok []
  | s :: rest =>
      if isMediaRef s.text then
        match addFeature s "Speaker" "None" overwrite with
        | Except.error e => Except.error e
        | Except.ok s2 =>
            match tagSpeakersGo overwrite speaker_tag rest with
            | Except.error e => Except.error e
            | Except.ok rest2 => Except.ok (s2 :: rest2)
      else
        let tag2 := if hasColon s.text then beforeColon s.text else speaker_tag
        match addFeature s "Speaker" tag2 overwrite with
        | Except.error e => Except.error e
        | Except.ok s2 =>
            match tagSpeakersGo overwrite tag2 rest with
            | Except.error e => Except.error e
            | Except.ok rest2 => Except.ok (s2 :: rest2)

/-- hiltnlp.tag_speakers: sort by start offset, then scan with the running
speaker_tag state initialised to "None".  The Python version mutates the
sentences in place; here the updated sentences are returned, in the scanned
(sorted) order. -/
def tag_speakers (sentences : List Sentence) (overwrite : Bool) :
    Except PipeError (List Sentence) :=
  tagSpeakersGo overwrite "None" (sortSents sentences)

/-- The branch structure of one hiltnlp.tag_turns loop iteration, given the
two-back and one-back sentences (none when absent) and the current
sentence's speaker.  Reads of a missing Speaker feature on the lookback
sentences are KeyErrors. -/
def turnHeadOf (p2 p1 : Option Sentence) (spk : String) : Except PipeError String :=
  if spk = "None" then Except.ok "False"
  else
    match p1 with
    | none => Except.ok "True"
    | some prev =>
        match p2 with
        | none => Except.ok "True"
        | some prev2 =>
            match get_speaker prev with
            | none => Except.error PipeError.keyError
            | some pspk =>
                if pspk = spk then Except.ok "False"
                else if pspk = "None" then
                  match get_speaker prev2 with
                  | none => Except.error PipeError.keyError
                  | some ppspk =>
                      if ppspk = spk then Except.ok "False" else Except.ok "True"
                else Except.ok "True"

/-- The scanning loop of hiltnlp.tag_turns, with the one-back and two-back
sentences carried positionally (they model sentence.previous and
sentence.previous.previous of the doubly linked traversal). -/
def tagTurnsGo (overwrite : Bool) (p2 p1 : Option Sentence) :
    List Sentence → Except PipeError (List Sentence)
  | [] => Except.ok []
  | s :: rest =>
      match get_speaker s with
      | none => Except.error PipeError.keyError
      | some spk =>
          match turnHeadOf p2 p1 spk with
          | Except.error e => Except.error e
          | Except.ok flag =>
              match addFeature s "Turn_head" flag overwrite with
              | Except.error e => Except.error e
              | Except.ok s2 =>
                  match tagTurnsGo overwrite p1 (some s2) rest with
                  | Except.error e => Except.error e
                  | Except.ok rest2 => Except.ok (s2 :: rest2)

/-- hiltnlp.tag_turns: sort by start offset, then classify every sentence's
Turn_head feature from the current speaker and the speakers one and two
sentences back. -/
def tag_turns (sentences : List Sentence) (overwrite : Bool) :
    Except PipeError (List Sentence) :=
  tagTurnsGo overwrite none none (sortSents sentences)

/-- The turn assembly loop of hiltnlp.get_turns: on a sentence whose
Turn_head is "True" the pending run is closed into a Turn - unconditionally,
even when the pending run is still empty - and a fresh run starts with the
current sentence; otherwise the sentence extends the pending run; a final
non-empty run is closed after the scan. -/
def buildTurns (turns : List Turn) (turn_sentences : List Sentence) :
    List Sentence → Except PipeError (List Turn)
  | [] =>
      match turn_sentences with
      | [] => Except.ok turns
      | _ :: _ =>
          match mkTurn turn_sentences with
          | Except.error e => Except.error e
          | Except.ok t => Except.ok (turns ++ [t])
  | s :: rest =>
      match is_turn_head s with
      | none => Except.error PipeError.keyError
      | some b =>
          if b then
            match mkTurn turn_sentences with
            | Except.error e => Except.error e
            | Except.ok t => buildTurns (turns ++ [t]) [s] rest
          else buildTurns turns (turn_sentences ++ [s]) rest

/-- hiltnlp.get_turns: sort the sentences, tag speakers and turn heads - the
Python source calls tag_speakers(sentences) and tag_turns(sentences) without
forwarding its own overwrite parameter, so both run with overwrite false -
then group the classified sequence into turns.  The dlink call on the
resulting turns is represented by the order of the returned list, and the
sentence.turn back assignment by turnOf below. -/
def get_turns (sentences : List Sentence) (overwrite : Bool) :
    Except PipeError (List Turn) :=
  match tag_speakers (sortSents sentences) false with
  | Except.error e => Except.error e
  | Except.ok tagged1 =>
      match tag_turns tagged1 false with
      | Except.error e => Except.error e
      | Except.ok tagged2 => buildTurns [] [] tagged2

/-- The final value of the sentence.turn back reference set by get_turns'
closing loop (for turn in turns: for sentence in turn: sentence.turn = turn):
the last turn, in list order, whose sentence list contains the sentence. -/
def turnOf (turns : List Turn) (s : Sentence) : Option Turn :=
  (turns.filter (fun t => decide (s ∈ t.sentences))).getLast?

/-- Two elements sitting at adjacent positions of a list. -/
def adjacentIn {α : Type} (a b : α) (l : List α) : Prop :=
  ∃ u v, l = u ++ a :: b :: v

/-- Definition following the spec's words (section 4.3 Speaker Tagger): the
sequence of speaker labels produced from the sentence texts by the running
speaker state.  For comparison with tag_speakers. -/
def specSpeakerScan (tag : String) : List String → List String
  | [] => []
  | t :: rest =>
      if isMediaRef t then "None" :: specSpeakerScan tag rest
      else
        let tag2 := if hasColon t then beforeColon t else tag
        tag2 :: specSpeakerScan tag2 rest

/-- Definition following the spec's words (section 4.4 Turn-Head Classifier):
the decision table on the current speaker and the speakers one and two
sentences back, evaluated top to bottom, first match winning.  For comparison
with tag_turns. -/
def specTurnHead (two_back one_back : Option String) (current : String) : String :=
  if current = "None" then "False"
  else
    match one_back with
    | none => "True"
    | some prev =>
        match two_back with
        | none => "True"
        | some prev2 =>
            if prev = current then "False"
            else if prev = "None" then
              (if prev2 = current then "False" else "True")
            else "True"

/-- The spec decision table mapped over a speaker sequence, threading the
lookback window. -/
def specTurnHeads (p2 p1 : Option String) : List String → List String
  | [] => []
  | spk :: rest => specTurnHead p2 p1 spk :: specTurnHeads p1 (some spk) rest

/-- The sentences of a list of turns all carry the spec decision table's
verdicts, threading the lookback window of speakers. -/
def headsConsistent (q2 q1 : Option String) : List Sentence → Prop
  | [] => True
  | s :: rest =>
      ∃ spk, get_speaker s = some spk ∧
        lookupFeature s.features "Turn_head" = some (specTurnHead q2 q1 spk) ∧
        headsConsistent q1 (some spk) rest

/-- A Python runtime value, as far as the Turn link setters are concerned:
the None sentinel, booleans, numbers, strings, and Turn objects (with their
stored next and previous slots). -/
inductive PyVal where
  | pynone
  | pybool (b : Bool)
  | pyint (n : Int)
  | pystr (s : String)
  | pyturn (sentences : List Sentence) (speaker : String) (nxt prev : PyVal)
deriving DecidableEq, Repr

/-- Python truthiness of the modelled values.  A Turn object defines neither
a length nor a boolean conversion, so it is always truthy. -/
def truthy : PyVal → Bool
  | PyVal.pynone => false
  | PyVal.pybool b => b
  | PyVal.pyint n => n != 0
  | PyVal.pystr s => s != ""
  | PyVal.pyturn _ _ _ _ => true

/-- Python: type(value) is Turn. -/
def isTurnVal : PyVal → Bool
  | PyVal.pyturn _ _ _ _ => true
  | _ => false

/-- The Turn.next setter: a truthy value that is not a Turn raises TypeError
(an error result leaves the stored slot of the Python object unchanged);
any other value - a Turn or any falsy value - is stored unconditionally. -/
def turnSetNext (t v : PyVal) : Except PipeError PyVal :=
  match t with
  | PyVal.pyturn ss spk _ prev =>
      if truthy v then
        if isTurnVal v then Except.ok (PyVal.pyturn ss spk v prev)
        else Except.error PipeError.typeError
      else Except.ok (PyVal.pyturn ss spk v prev)
  | _ => Except.error PipeError.typeError

/-- The Turn.previous setter, symmetric to turnSetNext. -/
def turnSetPrevious (t v : PyVal) : Except PipeError PyVal :=
  match t with
  | PyVal.pyturn ss spk nxt _ =>
      if truthy v then
        if isTurnVal v then Except.ok (PyVal.pyturn ss spk nxt v)
        else Except.error PipeError.typeError
      else Except.ok (PyVal.pyturn ss spk nxt v)
  | _ => Except.error PipeError.typeError

/-- Concrete transcript: a media line, an explicit speaker line, and a
continuation line, in document order. -/
def exM : Sentence := { start_node := 0, end_node := 5, text := "x.mp3", features := [] }

def exA : Sentence := { start_node := 5, end_node := 10, text := "A: hi", features := [] }

def exB : Sentence := { start_node := 10, end_node := 15, text := "yes", features := [] }

/-- The example transcript after speaker tagging. -/
def exM1 : Sentence := { exM with features := [("Speaker", "None")] }

def exA1 : Sentence := { exA with features := [("Speaker", "A")] }

def exB1 : Sentence := { exB with features := [("Speaker", "A")] }

/-- The example transcript after turn-head tagging. -/
def exM2 : Sentence := { exM1 with features := [("Speaker", "None"), ("Turn_head", "False")] }

def exA2 : Sentence := { exA1 with features := [("Speaker", "A"), ("Turn_head", "True")] }

def exB2 : Sentence := { exB1 with features := [("Speaker", "A"), ("Turn_head", "False")] }

/-- The turns get_turns assembles from the example transcript. -/
def exT1 : Turn := { sentences := [exM2], speaker := "None" }

def exT2 : Turn := { sentences := [exA2, exB2], speaker := "A" }

/-- Two adjacent sentences carrying the same explicit speaker tag, in
document order. -/
def cA : Sentence := { start_node := 0, end_node := 5, text := "A: hi", features := [] }

def cB : Sentence := { start_node := 5, end_node := 11, text := "A: yes", features := [] }

def cA1 : Sentence := { cA with features := [("Speaker", "A")] }

def cB1 : Sentence := { cB with features := [("Speaker", "A")] }

def cA2 : Sentence := { cA1 with features := [("Speaker", "A"), ("Turn_head", "True")] }

def cB2 : Sentence := { cB1 with features := [("Speaker", "A"), ("Turn_head", "True")] }

/-- A lone sentence with no speaker tag, no colon and no media reference. -/
def cH : Sentence := { start_node := 0, end_node := 5, text := "hello", features := [] }

def cH1 : Sentence := { cH with features := [("Speaker", "None")] }

def cH2 : Sentence := { cH1 with features := [("Speaker", "None"), ("Turn_head", "False")] }

/-- A sentence that already carries a conflicting Speaker feature. -/
def cS : Sentence :=
  { start_node := 0, end_node := 5, text := "A: hi", features := [("Speaker", "B")] }

/-- The same sentence after its Speaker feature has been overwritten. -/
def cS1 : Sentence := { cS with features := [("Speaker", "A")] }

theorem lookupFeature_append_self (fs : List (String × String)) (n v : String)
    (h : lookupFeature fs n = none) :
    lookupFeature (fs ++ [(n, v)]) n = some v := by
  induction fs with
  | nil => simp [lookupFeature]
  | cons p rest ih =>
      obtain ⟨pn, pv⟩ := p
      by_cases hn : pn = n
      · simp [lookupFeature, hn] at h
      · simp only [lookupFeature, List.cons_append, if_neg hn] at h ⊢
        exact ih h

theorem lookupFeature_append_other (fs : List (String × String)) (n v m : String)
    (hm : m ≠ n) :
    lookupFeature (fs ++ [(n, v)]) m = lookupFeature fs m := by
  induction fs with
  | nil => simp [lookupFeature, Ne.symm hm]
  | cons p rest ih =>
      obtain ⟨pn, pv⟩ := p
      by_cases hp : pn = m
      · simp [lookupFeature, hp]
      · simp only [lookupFeature, List.cons_append, if_neg hp]
        exact ih

theorem lookupFeature_setFeature_self (fs : List (String × String)) (n v old : String)
    (h : lookupFeature fs n = some old) :
    lookupFeature (setFeature fs n v) n = some v := by
  induction fs with
  | nil => simp [lookupFeature] at h
  | cons p rest ih =>
      obtain ⟨pn, pv⟩ := p
      by_cases hp : pn = n
      · simp [lookupFeature, setFeature, hp]
      · simp only [lookupFeature, if_neg hp] at h
        simp only [setFeature, if_neg hp, lookupFeature]
        exact ih h

theorem lookupFeature_setFeature_other (fs : List (String × String)) (n v m : String)
    (hm : m ≠ n) :
    lookupFeature (setFeature fs n v) m = lookupFeature fs m := by
  induction fs with
  | nil => simp [setFeature]
  | cons p rest ih =>
      obtain ⟨pn, pv⟩ := p
      by_cases hp : pn = n
      · have hpm : pn ≠ m := fun hh => hm (hh ▸ hp)
        simp [setFeature, lookupFeature, hp, hpm, Ne.symm hm]
      · simp [setFeature, lookupFeature, hp, ih]

theorem addFeature_ok (s : Sentence) (n v : String) (ov : Bool) (s2 : Sentence)
    (h : addFeature s n v ov = Except.ok s2) :
    lookupFeature s2.features n = some v ∧
      (∀ m, m ≠ n → lookupFeature s2.features m = lookupFeature s.features m) ∧
      coreOf s2 = coreOf s := by
  unfold addFeature at h
  cases hl : lookupFeature s.features n with
  | none =>
      simp only [hl] at h
      injection h with h2
      subst h2
      exact ⟨lookupFeature_append_self _ _ _ hl,
        fun m hm => lookupFeature_append_other _ _ _ _ hm, rfl⟩
  | some old =>
      simp only [hl] at h
      by_cases hov : ov = true
      · rw [if_pos hov] at h
        injection h with h2
        subst h2
        exact ⟨lookupFeature_setFeature_self _ _ _ _ hl,
          fun m hm => lookupFeature_setFeature_other _ _ _ _ hm, rfl⟩
      · rw [if_neg hov] at h
        by_cases hov2 : old = v
        · rw [if_pos hov2] at h
          injection h with h2
          subst h2
          refine ⟨?_, fun m _ => rfl, rfl⟩
          rw [hl, hov2]
        · rw [if_neg hov2] at h
          exact Except.noConfusion h

theorem sortSents_eq_of_sorted {l : List Sentence} (h : List.Sorted sentLE l) :
    sortSents l = l :=
  List.Sorted.insertionSort_eq h

theorem sorted_sortSents (l : List Sentence) : List.Sorted sentLE (sortSents l) :=
  List.sorted_insertionSort sentLE l

theorem sortSents_sortSents (l : List Sentence) : sortSents (sortSents l) = sortSents l :=
  sortSents_eq_of_sorted (sorted_sortSents l)

theorem map_start_of_map_core {l out : List Sentence}
    (h : out.map coreOf = l.map coreOf) :
    out.map Sentence.start_node = l.map Sentence.start_node := by
  have e : ∀ x : List Sentence,
      x.map Sentence.start_node = (x.map coreOf).map (fun c => c.1) := by
    intro x
    rw [List.map_map]
    rfl
  rw [e out, e l, h]

theorem sorted_of_map_core_eq {l out : List Sentence}
    (h : out.map coreOf = l.map coreOf) (hs : List.Sorted sentLE l) :
    List.Sorted sentLE out := by
  have hiff : ∀ x : List Sentence,
      List.Sorted sentLE x ↔
        List.Pairwise (fun a b : Nat => a ≤ b) (x.map Sentence.start_node) := by
    intro x
    rw [List.pairwise_map]
    exact Iff.rfl
  rw [hiff l] at hs
  rw [hiff out, map_start_of_map_core h]
  exact hs

theorem mkTurn_sentences (l : List Sentence) (t : Turn) (h : mkTurn l = Except.ok t) :
    t.sentences = l := by
  cases l with
  | nil => simp [mkTurn] at h
  | cons s rest =>
      simp only [mkTurn] at h
      cases hs : get_speaker s with
      | none => rw [hs] at h; exact Except.noConfusion h
      | some spk =>
          simp only [hs] at h
          injection h with h2
          rw [← h2]

theorem mkTurn_ne_nil (l : List Sentence) (t : Turn) (h : mkTurn l = Except.ok t) :
    l ≠ [] := by
  intro he
  subst he
  simp [mkTurn] at h

theorem tagSpeakersGo_spec (ov : Bool) (tag : String) (l : List Sentence) :
    ∀ out, tagSpeakersGo ov tag l = Except.ok out →
      out.map coreOf = l.map coreOf ∧
      out.map get_speaker = (specSpeakerScan tag (l.map Sentence.text)).map some := by
  induction l generalizing tag with
  | nil =>
      intro out h
      simp only [tagSpeakersGo] at h
      injection h with h2
      subst h2
      simp [specSpeakerScan]
  | cons s rest ih =>
      intro out h
      by_cases hmed : isMediaRef s.text = true
      · cases ha : addFeature s "Speaker" "None" ov with
        | error e => simp [tagSpeakersGo, hmed, ha] at h
        | ok s2 =>
            cases hr : tagSpeakersGo ov tag rest with
            | error e => simp [tagSpeakersGo, hmed, ha, hr] at h
            | ok rest2 =>
                simp [tagSpeakersGo, hmed, ha, hr] at h
                subst h
                obtain ⟨hl, _, hcore⟩ := addFeature_ok _ _ _ _ _ ha
                obtain ⟨ihc, ihs⟩ := ih tag rest2 hr
                constructor
                · simp [List.map_cons, hcore, ihc]
                · simp [List.map_cons, specSpeakerScan, hmed, get_speaker, hl, ihs]
      · by_cases hcol : hasColon s.text = true
        · cases ha : addFeature s "Speaker" (beforeColon s.text) ov with
          | error e => simp [tagSpeakersGo, hmed, hcol, ha] at h
          | ok s2 =>
              cases hr : tagSpeakersGo ov (beforeColon s.text) rest with
              | error e => simp [tagSpeakersGo, hmed, hcol, ha, hr] at h
              | ok rest2 =>
                  simp [tagSpeakersGo, hmed, hcol, ha, hr] at h
                  subst h
                  obtain ⟨hl, _, hcore⟩ := addFeature_ok _ _ _ _ _ ha
                  obtain ⟨ihc, ihs⟩ := ih (beforeColon s.text) rest2 hr
                  constructor
                  · simp [List.map_cons, hcore, ihc]
                  · simp [List.map_cons, specSpeakerScan, hmed, hcol, get_speaker, hl, ihs]
        · cases ha : addFeature s "Speaker" tag ov with
          | error e => simp [tagSpeakersGo, hmed, hcol, ha] at h
          | ok s2 =>
              cases hr : tagSpeakersGo ov tag rest with
              | error e => simp [tagSpeakersGo, hmed, hcol, ha, hr] at h
              | ok rest2 =>
                  simp [tagSpeakersGo, hmed, hcol, ha, hr] at h
                  subst h
                  obtain ⟨hl, _, hcore⟩ := addFeature_ok _ _ _ _ _ ha
                  obtain ⟨ihc, ihs⟩ := ih tag rest2 hr
                  constructor
                  · simp [List.map_cons, hcore, ihc]
                  · simp [List.map_cons, specSpeakerScan, hmed, hcol, get_speaker, hl, ihs]

theorem turnHeadOf_spec (p2 p1 : Option Sentence) (q2 q1 : Option String) (spk : String)
    (hp2 : p2.map get_speaker = q2.map some) (hp1 : p1.map get_speaker = q1.map some) :
    turnHeadOf p2 p1 spk = Except.ok (specTurnHead q2 q1 spk) := by
  by_cases hn : spk = "None"
  · simp [turnHeadOf, specTurnHead, hn]
  · cases p1 with
    | none =>
        cases q1 with
        | none => simp [turnHeadOf, specTurnHead, hn]
        | some x => simp at hp1
    | some prev =>
        cases q1 with
        | none => simp at hp1
        | some pspk =>
            simp only [Option.map_some'] at hp1
            injection hp1 with hp1e
            cases p2 with
            | none =>
                cases q2 with
                | none => simp [turnHeadOf, specTurnHead, hn]
                | some y => simp at hp2
            | some prev2 =>
                cases q2 with
                | none => simp at hp2
                | some ppspk =>
                    simp only [Option.map_some'] at hp2
                    injection hp2 with hp2e
                    simp only [turnHeadOf, specTurnHead, hn, hp1e, hp2e, if_false, ite_false]
                    split_ifs <;> rfl

theorem tagTurnsGo_spec (ov : Bool) (l : List Sentence) :
    ∀ (p2 p1 : Option Sentence) (q2 q1 : Option String) (ss : List String)
      (out : List Sentence),
      p2.map get_speaker = q2.map some →
      p1.map get_speaker = q1.map some →
      l.map get_speaker = ss.map some →
      tagTurnsGo ov p2 p1 l = Except.ok out →
      out.map (fun s => lookupFeature s.features "Turn_head") =
          (specTurnHeads q2 q1 ss).map some ∧
        out.map get_speaker = ss.map some ∧
        out.map coreOf = l.map coreOf := by
  induction l with
  | nil =>
      intro p2 p1 q2 q1 ss out _ _ hss h
      simp only [tagTurnsGo] at h
      injection h with h2
      subst h2
      cases ss with
      | nil => simp [specTurnHeads]
      | cons a as => simp at hss
  | cons s rest ih =>
      intro p2 p1 q2 q1 ss out hp2 hp1 hss h
      cases ss with
      | nil => simp at hss
      | cons spk ss2 =>
          simp only [List.map_cons, List.cons.injEq] at hss
          obtain ⟨hs1, hs2⟩ := hss
          have hth := turnHeadOf_spec p2 p1 q2 q1 spk hp2 hp1
          cases ha : addFeature s "Turn_head" (specTurnHead q2 q1 spk) ov with
          | error e => simp [tagTurnsGo, hs1, hth, ha] at h
          | ok s2 =>
              cases hr : tagTurnsGo ov p1 (some s2) rest with
              | error e => simp [tagTurnsGo, hs1, hth, ha, hr] at h
              | ok rest2 =>
                  simp [tagTurnsGo, hs1, hth, ha, hr] at h
                  subst h
                  obtain ⟨hl, hother, hcore⟩ := addFeature_ok _ _ _ _ _ ha
                  have hsp2 : get_speaker s2 = some spk := by
                    show lookupFeature s2.features "Speaker" = some spk
                    rw [hother "Speaker" (by decide)]
                    exact hs1
                  obtain ⟨ih1, ih2, ih3⟩ :=
                    ih p1 (some s2) q1 (some spk) ss2 rest2 hp1 (by simp [hsp2]) hs2 hr
                  refine ⟨?_, ?_, ?_⟩
                  · simp [List.map_cons, specTurnHeads, hl, ih1]
                  · simp [List.map_cons, hsp2, ih2]
                  · simp [List.map_cons, hcore, ih3]

theorem headsConsistent_of_maps (out : List Sentence) :
    ∀ (ss : List String) (q2 q1 : Option String),
      out.map get_speaker = ss.map some →
      out.map (fun s => lookupFeature s.features "Turn_head") =
        (specTurnHeads q2 q1 ss).map some →
      headsConsistent q2 q1 out := by
  induction out with
  | nil => intro ss q2 q1 _ _; simp [headsConsistent]
  | cons s rest ih =>
      intro ss q2 q1 hsp hth
      cases ss with
      | nil => simp at hsp
      | cons spk ss2 =>
          simp only [List.map_cons, List.cons.injEq] at hsp
          obtain ⟨h1, h2⟩ := hsp
          rw [specTurnHeads] at hth
          simp only [List.map_cons, List.cons.injEq] at hth
          obtain ⟨h3, h4⟩ := hth
          exact ⟨spk, h1, h3, ih ss2 q1 (some spk) h2 h4⟩

theorem headsConsistent_adj (u : List Sentence) :
    ∀ (q2 q1 : Option String) (a b : Sentence) (v : List Sentence),
      headsConsistent q2 q1 (u ++ a :: b :: v) →
      ∃ qa spka spkb, get_speaker a = some spka ∧ get_speaker b = some spkb ∧
        lookupFeature b.features "Turn_head" = some (specTurnHead qa (some spka) spkb) ∧
        (u = [] → qa = q1) ∧ (u ≠ [] → ∃ w, qa = some w) := by
  induction u with
  | nil =>
      intro q2 q1 a b v h
      simp only [List.nil_append] at h
      rw [headsConsistent] at h
      obtain ⟨spka, ha, _, h2⟩ := h
      rw [headsConsistent] at h2
      obtain ⟨spkb, hb, hfb, _⟩ := h2
      exact ⟨q1, spka, spkb, ha, hb, hfb, fun _ => rfl, fun hne => absurd rfl hne⟩
  | cons x u2 ih =>
      intro q2 q1 a b v h
      simp only [List.cons_append] at h
      rw [headsConsistent] at h
      obtain ⟨spkx, _, _, h2⟩ := h
      obtain ⟨qa, spka, spkb, ha, hb, hfb, hu1, hu2⟩ := ih q1 (some spkx) a b v h2
      refine ⟨qa, spka, spkb, ha, hb, hfb, fun he => absurd he (by simp), fun _ => ?_⟩
      by_cases hu : u2 = []
      · exact ⟨spkx, hu1 hu⟩
      · exact hu2 hu

theorem adjacentIn_append {α : Type} (a b : α) (xs : List α) :
    ∀ ys, adjacentIn a b (xs ++ ys) →
      adjacentIn a b xs ∨ adjacentIn a b ys ∨
        ((∃ u, xs = u ++ [a]) ∧ ∃ v, ys = b :: v) := by
  induction xs with
  | nil =>
      intro ys h
      right; left
      exact h
  | cons x xs2 ih =>
      intro ys h
      obtain ⟨u, v, huv⟩ := h
      cases u with
      | nil =>
          simp only [List.cons_append, List.nil_append] at huv
          injection huv with h1 h2
          cases xs2 with
          | nil =>
              subst h1
              right; right
              refine ⟨⟨[], rfl⟩, v, ?_⟩
              simpa using h2
          | cons y xs3 =>
              simp only [List.cons_append] at h2
              injection h2 with h3 h4
              subst h1
              subst h3
              left
              exact ⟨[], xs3, rfl⟩
      | cons c u2 =>
          simp only [List.cons_append] at huv
          injection huv with h1 h2
          rcases ih ys ⟨u2, v, h2⟩ with hx | hy | hb
          · left
            obtain ⟨uu, vv, he⟩ := hx
            exact ⟨x :: uu, vv, by rw [List.cons_append, he]⟩
          · right; left
            exact hy
          · right; right
            obtain ⟨⟨uu, he⟩, hv⟩ := hb
            exact ⟨⟨x :: uu, by rw [List.cons_append, he]⟩, hv⟩

theorem buildTurns_prefix (rest : List Sentence) :
    ∀ acc run turns, buildTurns acc run rest = Except.ok turns →
      ∃ ts, turns = acc ++ ts := by
  induction rest with
  | nil =>
      intro acc run turns h
      cases run with
      | nil =>
          simp only [buildTurns] at h
          injection h with h2
          exact ⟨[], by rw [← h2, List.append_nil]⟩
      | cons r rs =>
          simp only [buildTurns] at h
          cases hm : mkTurn (r :: rs) with
          | error e => rw [hm] at h; exact Except.noConfusion h
          | ok t =>
              simp only [hm] at h
              injection h with h2
              exact ⟨[t], h2.symm⟩
  | cons s rest2 ih =>
      intro acc run turns h
      simp only [buildTurns] at h
      cases hh : is_turn_head s with
      | none => rw [hh] at h; exact Except.noConfusion h
      | some b =>
          cases b
          · simp only [hh] at h
            simp at h
            exact ih acc (run ++ [s]) turns h
          · simp only [hh] at h
            simp at h
            cases hm : mkTurn run with
            | error e => rw [hm] at h; exact Except.noConfusion h
            | ok t =>
                simp only [hm] at h
                obtain ⟨ts, hts⟩ := ih (acc ++ [t]) [s] turns h
                exact ⟨t :: ts, by rw [hts]; simp⟩

theorem buildTurns_flatten (rest : List Sentence) :
    ∀ acc run turns, buildTurns acc run rest = Except.ok turns →
      (turns.map Turn.sentences).flatten =
        (acc.map Turn.sentences).flatten ++ run ++ rest := by
  induction rest with
  | nil =>
      intro acc run turns h
      cases run with
      | nil =>
          simp only [buildTurns] at h
          injection h with h2
          subst h2
          simp
      | cons r rs =>
          simp only [buildTurns] at h
          cases hm : mkTurn (r :: rs) with
          | error e => simp [hm] at h
          | ok t =>
              simp [hm] at h
              subst h
              have ht := mkTurn_sentences _ _ hm
              simp [List.map_append, ht]
  | cons s rest2 ih =>
      intro acc run turns h
      simp only [buildTurns] at h
      cases hh : is_turn_head s with
      | none => simp [hh] at h
      | some b =>
          cases b
          · simp [hh] at h
            have := ih acc (run ++ [s]) turns h
            rw [this, List.append_assoc, List.append_assoc]
            simp
          · simp [hh] at h
            cases hm : mkTurn run with
            | error e => simp [hm] at h
            | ok t =>
                simp [hm] at h
                have := ih (acc ++ [t]) [s] turns h
                rw [this]
                have ht := mkTurn_sentences _ _ hm
                simp [List.map_append, ht, List.append_assoc]

theorem buildTurns_nonempty (rest : List Sentence) :
    ∀ acc run turns, buildTurns acc run rest = Except.ok turns →
      (∀ t ∈ acc, t.sentences ≠ []) → ∀ t ∈ turns, t.sentences ≠ [] := by
  induction rest with
  | nil =>
      intro acc run turns h hacc
      cases run with
      | nil =>
          simp only [buildTurns] at h
          injection h with h2
          subst h2
          exact hacc
      | cons r rs =>
          simp only [buildTurns] at h
          cases hm : mkTurn (r :: rs) with
          | error e => simp [hm] at h
          | ok t0 =>
              simp [hm] at h
              subst h
              intro t ht
              rcases List.mem_append.mp ht with h1 | h2
              · exact hacc t h1
              · have : t = t0 := List.mem_singleton.mp h2
                subst this
                rw [mkTurn_sentences _ _ hm]
                simp
  | cons s rest2 ih =>
      intro acc run turns h hacc
      simp only [buildTurns] at h
      cases hh : is_turn_head s with
      | none => simp [hh] at h
      | some b =>
          cases b
          · simp [hh] at h
            exact ih acc (run ++ [s]) turns h hacc
          · simp [hh] at h
            cases hm : mkTurn run with
            | error e => simp [hm] at h
            | ok t0 =>
                simp [hm] at h
                refine ih (acc ++ [t0]) [s] turns h ?_
                intro t ht
                rcases List.mem_append.mp ht with h1 | h2
                · exact hacc t h1
                · have : t = t0 := List.mem_singleton.mp h2
                  subst this
                  rw [mkTurn_sentences _ _ hm]
                  exact mkTurn_ne_nil _ _ hm

theorem buildTurns_adj (rest : List Sentence) :
    ∀ acc run turns, buildTurns acc run rest = Except.ok turns →
      ∀ a b, adjacentIn a b (run ++ rest) → is_turn_head b = some false →
        ∃ t, t ∈ turns ∧ a ∈ t.sentences ∧ b ∈ t.sentences := by
  induction rest with
  | nil =>
      intro acc run turns h a b hadj hb
      rw [List.append_nil] at hadj
      cases run with
      | nil =>
          obtain ⟨u, v, huv⟩ := hadj
          exact absurd huv (by simp)
      | cons r rs =>
          simp only [buildTurns] at h
          cases hm : mkTurn (r :: rs) with
          | error e => simp [hm] at h
          | ok t =>
              simp [hm] at h
              subst h
              obtain ⟨u, v, huv⟩ := hadj
              refine ⟨t, by simp, ?_, ?_⟩
              · rw [mkTurn_sentences _ _ hm, huv]
                simp
              · rw [mkTurn_sentences _ _ hm, huv]
                simp
  | cons s rest2 ih =>
      intro acc run turns h a b hadj hb
      simp only [buildTurns] at h
      cases hh : is_turn_head s with
      | none => simp [hh] at h
      | some bb =>
          cases bb
          · simp [hh] at h
            refine ih acc (run ++ [s]) turns h a b ?_ hb
            rw [← List.append_cons]
            exact hadj
          · simp [hh] at h
            cases hm : mkTurn run with
            | error e => simp [hm] at h
            | ok t0 =>
                simp [hm] at h
                rcases adjacentIn_append a b run (s :: rest2) hadj with hin | hin | hbound
                · obtain ⟨ts, hts⟩ := buildTurns_prefix rest2 (acc ++ [t0]) [s] turns h
                  obtain ⟨u, v, huv⟩ := hin
                  refine ⟨t0, by rw [hts]; simp, ?_, ?_⟩
                  · rw [mkTurn_sentences _ _ hm, huv]
                    simp
                  · rw [mkTurn_sentences _ _ hm, huv]
                    simp
                · exact ih (acc ++ [t0]) [s] turns h a b hin hb
                · obtain ⟨v, hv⟩ := hbound.2
                  injection hv with hb1 _
                  rw [← hb1] at hb
                  rw [hh] at hb
                  exact absurd hb (by simp)

theorem turnOf_eq (turns : List Turn) :
    ∀ (s : Sentence) (t : Turn),
      ((turns.map Turn.sentences).flatten).Nodup →
      t ∈ turns → s ∈ t.sentences → turnOf turns s = some t := by
  induction turns with
  | nil =>
      intro s t _ ht _
      exact absurd ht (List.not_mem_nil t)
  | cons t0 rest ih =>
      intro s t hnd ht hs
      simp only [List.map_cons, List.flatten_cons] at hnd
      rw [List.nodup_append] at hnd
      obtain ⟨hn1, hn2, hdisj⟩ := hnd
      rcases List.mem_cons.mp ht with rfl | hmem
      · have hrest_filter : rest.filter (fun t2 => decide (s ∈ t2.sentences)) = [] := by
          rw [List.filter_eq_nil_iff]
          intro t2 ht2
          simp only [decide_eq_true_eq]
          intro hs2
          exact hdisj hs
            (List.mem_flatten.mpr ⟨t2.sentences, List.mem_map_of_mem Turn.sentences ht2, hs2⟩)
        unfold turnOf
        rw [List.filter_cons, if_pos (by simpa using hs), hrest_filter]
        rfl
      · have hs0 : s ∉ t0.sentences := by
          intro hs0
          exact hdisj hs0
            (List.mem_flatten.mpr ⟨t.sentences, List.mem_map_of_mem Turn.sentences hmem, hs⟩)
        have hrec := ih s t hn2 hmem hs
        unfold turnOf at hrec ⊢
        rw [List.filter_cons, if_neg (by simpa using hs0)]
        exact hrec

theorem get_turns_pipeline (sents : List Sentence) (ov : Bool) (turns : List Turn)
    (h : get_turns sents ov = Except.ok turns) :
    ∃ t1 t2,
      tagSpeakersGo false "None" (sortSents sents) = Except.ok t1 ∧
      tagTurnsGo false none none t1 = Except.ok t2 ∧
      buildTurns [] [] t2 = Except.ok turns ∧
      t1.map coreOf = (sortSents sents).map coreOf ∧
      t2.map coreOf = (sortSents sents).map coreOf ∧
      t1.map get_speaker =
        (specSpeakerScan "None" ((sortSents sents).map Sentence.text)).map some ∧
      t2.map get_speaker =
        (specSpeakerScan "None" ((sortSents sents).map Sentence.text)).map some ∧
      t2.map (fun s => lookupFeature s.features "Turn_head") =
        (specTurnHeads none none
          (specSpeakerScan "None" ((sortSents sents).map Sentence.text))).map some := by
  unfold get_turns at h
  cases h1 : tag_speakers (sortSents sents) false with
  | error e => rw [h1] at h; exact Except.noConfusion h
  | ok t1 =>
      rw [h1] at h
      have h' : (match tag_turns t1 false with
          | Except.error e => Except.error e
          | Except.ok tagged2 => buildTurns [] [] tagged2) = Except.ok turns := h
      cases h2 : tag_turns t1 false with
      | error e => rw [h2] at h'; exact Except.noConfusion h'
      | ok t2 =>
          rw [h2] at h'
          have hb : buildTurns [] [] t2 = Except.ok turns := h'
          have hgo1 : tagSpeakersGo false "None" (sortSents sents) = Except.ok t1 := by
            have e1 : tag_speakers (sortSents sents) false
                = tagSpeakersGo false "None" (sortSents sents) := by
              unfold tag_speakers
              rw [sortSents_sortSents]
            rw [← e1]
            exact h1
          obtain ⟨hc1, hs1⟩ := tagSpeakersGo_spec false "None" (sortSents sents) t1 hgo1
          have hsorted1 : List.Sorted sentLE t1 :=
            sorted_of_map_core_eq hc1 (sorted_sortSents sents)
          have hgo2 : tagTurnsGo false none none t1 = Except.ok t2 := by
            have e2 : tag_turns t1 false = tagTurnsGo false none none t1 := by
              unfold tag_turns
              rw [sortSents_eq_of_sorted hsorted1]
            rw [← e2]
            exact h2
          obtain ⟨hth2, hsp2, hc2⟩ :=
            tagTurnsGo_spec false t1 none none none none
              (specSpeakerScan "None" ((sortSents sents).map Sentence.text)) t2
              rfl rfl hs1 hgo2
          refine ⟨t1, t2, hgo1, hgo2, hb, hc1, ?_, hs1, hsp2, hth2⟩
          rw [hc2, hc1]

theorem map_at_some {α β : Type} (f : α → β) (l : List α) (i : Nat) (y : β)
    (h : (l.map f)[i]? = some y) : ∃ x, l[i]? = some x ∧ f x = y := by
  rw [List.getElem?_map] at h
  cases hx : l[i]? with
  | none => rw [hx] at h; simp at h
  | some x =>
      rw [hx] at h
      simp only [Option.map_some'] at h
      injection h with h2
      exact ⟨x, rfl, h2⟩

theorem specSpeakerScan_media_at (texts : List String) :
    ∀ (tag : String) (i : Nat) (txt : String), texts[i]? = some txt →
      isMediaRef txt = true → (specSpeakerScan tag texts)[i]? = some "None" := by
  induction texts with
  | nil => intro tag i txt h _; simp at h
  | cons t rest ih =>
      intro tag i txt h hmed
      cases i with
      | zero =>
          simp only [List.getElem?_cons_zero] at h
          injection h with h2
          subst h2
          simp [specSpeakerScan, hmed]
      | succ j =>
          simp only [List.getElem?_cons_succ] at h
          by_cases hm : isMediaRef t = true
          · simp only [specSpeakerScan, hm, if_true, List.getElem?_cons_succ]
            exact ih tag j txt h hmed
          · by_cases hc : hasColon t = true <;>
              simp only [specSpeakerScan, hm, hc, if_true, if_false, Bool.false_eq_true,
                List.getElem?_cons_succ] <;>
              exact ih _ j txt h hmed

theorem specTurnHeads_none_at (ss : List String) :
    ∀ (q2 q1 : Option String) (i : Nat), ss[i]? = some "None" →
      (specTurnHeads q2 q1 ss)[i]? = some "False" := by
  induction ss with
  | nil => intro q2 q1 i h; simp at h
  | cons spk rest ih =>
      intro q2 q1 i h
      cases i with
      | zero =>
          simp only [List.getElem?_cons_zero] at h
          injection h with h2
          subst h2
          simp [specTurnHeads, specTurnHead]
      | succ j =>
          simp only [List.getElem?_cons_succ] at h
          simp only [specTurnHeads, List.getElem?_cons_succ]
          exact ih q1 (some spk) j h

/-- Claim C1 (code bug): the claim says the empty run accumulated before the
first flush is discarded and get_turns never constructs a Turn with an empty
sentence list.  The code flushes the pending run unconditionally at every
Turn_head "True" sentence, so on the single sentence "A: hello" - whose
Turn_head is "True" - the first flush constructs Turn([]) and the
sentences[0] read inside Turn.__init__ fails: get_turns signals IndexError
instead of discarding the empty first run. -/
theorem c1_empty_first_flush_crash :
    get_turns [{ start_node := 0, end_node := 8, text := "A: hello", features := [] }] false =
      Except.error PipeError.indexError := rfl

/-- Claim C4: tag_turns assigns every sentence's Turn_head feature exactly by
the spec's decision table (specTurnHead, evaluated top to bottom, first match
winning) applied to the current speaker and the speakers one and two
sentences back, and the decision depends on nothing else - the resulting
flag sequence is specTurnHeads over the speaker sequence alone. -/
theorem c4_decision_table (l : List Sentence) (ss : List String) (out : List Sentence)
    (ov : Bool)
    (hss : (sortSents l).map get_speaker = ss.map some)
    (h : tag_turns l ov = Except.ok out) :
    out.map (fun s => lookupFeature s.features "Turn_head") =
      (specTurnHeads none none ss).map some ∧
    out.map get_speaker = ss.map some := by
  unfold tag_turns at h
  obtain ⟨h1, h2, _⟩ := tagTurnsGo_spec ov (sortSents l) none none none none ss out rfl rfl hss h
  exact ⟨h1, h2⟩

/-- Witness for c4_decision_table at the concrete example transcript. -/
theorem c4_decision_table_witness :
    [exM2, exA2, exB2].map (fun s => lookupFeature s.features "Turn_head") =
      (specTurnHeads none none ["None", "A", "A"]).map some :=
  (c4_decision_table [exM1, exA1, exB1] ["None", "A", "A"] [exM2, exA2, exB2] false rfl rfl).1

/-- Claim C5: tag_speakers scans the sentences in ascending start-offset
order with a running speaker state that starts as "None"; a non-media
sentence containing a colon updates the state to the text before the first
colon, and every non-media sentence receives the current state - the
assigned Speaker sequence is exactly specSpeakerScan over the sorted texts. -/
theorem c5_speaker_scan (sents : List Sentence) (ov : Bool) (out : List Sentence)
    (h : tag_speakers sents ov = Except.ok out) :
    out.map get_speaker =
      (specSpeakerScan "None" ((sortSents sents).map Sentence.text)).map some ∧
    out.map coreOf = (sortSents sents).map coreOf := by
  unfold tag_speakers at h
  obtain ⟨h1, h2⟩ := tagSpeakersGo_spec ov "None" (sortSents sents) out h
  exact ⟨h2, h1⟩

/-- Witness for c5_speaker_scan at the concrete example transcript. -/
theorem c5_speaker_scan_witness :
    [exM1, exA1, exB1].map get_speaker =
      (specSpeakerScan "None" ((sortSents [exM, exA, exB]).map Sentence.text)).map some :=
  (c5_speaker_scan [exM, exA, exB] false [exM1, exA1, exB1] rfl).1

/-- Claim C8 is false as stated: assigning the falsy non-Turn value 0 (or
False) to a Turn's next or previous does not raise TypeError - the truthiness
guard skips the type check and the value is stored, changing the link. -/
theorem c8_counterexample :
    turnSetNext (PyVal.pyturn [exA2] "A" PyVal.pynone PyVal.pynone) (PyVal.pyint 0) =
      Except.ok (PyVal.pyturn [exA2] "A" (PyVal.pyint 0) PyVal.pynone) ∧
    turnSetPrevious (PyVal.pyturn [exA2] "A" PyVal.pynone PyVal.pynone) (PyVal.pybool false) =
      Except.ok (PyVal.pyturn [exA2] "A" PyVal.pynone (PyVal.pybool false)) :=
  ⟨rfl, rfl⟩

/-- Claim C8 (amended): assigning a truthy non-Turn value to a Turn's next or
previous raises TypeError and leaves the stored link unchanged (the setter
returns no new state); assigning a Turn or any falsy value (the None
sentinel, False, 0, the empty string) succeeds and stores that value. -/
theorem c8_amended_setter (ss : List Sentence) (spk : String) (nx pv v : PyVal) :
    (truthy v = true → isTurnVal v = false →
      turnSetNext (PyVal.pyturn ss spk nx pv) v = Except.error PipeError.typeError ∧
      turnSetPrevious (PyVal.pyturn ss spk nx pv) v = Except.error PipeError.typeError) ∧
    (truthy v = false ∨ isTurnVal v = true →
      turnSetNext (PyVal.pyturn ss spk nx pv) v = Except.ok (PyVal.pyturn ss spk v pv) ∧
      turnSetPrevious (PyVal.pyturn ss spk nx pv) v = Except.ok (PyVal.pyturn ss spk nx v)) := by
  constructor
  · intro ht hnt
    constructor <;> simp [turnSetNext, turnSetPrevious, ht, hnt]
  · intro hd
    rcases hd with hf | ht
    · constructor <;> simp [turnSetNext, turnSetPrevious, hf]
    · by_cases htr : truthy v = true <;>
        constructor <;> simp [turnSetNext, turnSetPrevious, ht, htr]

/-- Witness for c8_amended_setter: a truthy string is rejected. -/
theorem c8_amended_setter_witness :
    turnSetNext (PyVal.pyturn [exA2] "A" PyVal.pynone PyVal.pynone) (PyVal.pystr "x") =
      Except.error PipeError.typeError :=
  ((c8_amended_setter [exA2] "A" PyVal.pynone PyVal.pynone (PyVal.pystr "x")).1 rfl rfl).1

/-- Claim C9 is false as stated: get_turns does not forward its overwrite
flag.  On a sentence that already carries Speaker "B", tag_speakers with
overwrite true replaces the feature, but get_turns with overwrite true still
calls tag_speakers with overwrite false and fails with a feature conflict. -/
theorem c9_counterexample :
    get_turns [cS] true = Except.error PipeError.featureConflict ∧
    tag_speakers [cS] true = Except.ok [cS1] :=
  ⟨rfl, rfl⟩

/-- Claim C9 (amended): the overwrite parameter of get_turns is accepted but
never used - tag_speakers and tag_turns are always invoked with overwrite
false, so get_turns behaves identically for every value of the flag. -/
theorem c9_amended_overwrite_ignored (sents : List Sentence) (ov : Bool) :
    get_turns sents ov = get_turns sents false := rfl

/-- Claim C10: is_explicit_person_reference holds exactly when
get_grammatical_person returns a value, that value is always 1, 2 or 3
according to which reference word list contains the lower-cased text, and on
a text in none of the lists get_grammatical_person returns none (Python's
implicit None) despite the documented int result. -/
theorem c10_person_reference (t : String) :
    (is_explicit_person_reference t = true ↔ (get_grammatical_person t).isSome = true) ∧
    (∀ n, get_grammatical_person t = some n → n = 1 ∨ n = 2 ∨ n = 3) ∧
    (lowerString t ∈ first_reference_words → get_grammatical_person t = some 1) ∧
    (lowerString t ∈ second_reference_words → get_grammatical_person t = some 2) ∧
    (lowerString t ∈ third_reference_words → get_grammatical_person t = some 3) ∧
    (get_grammatical_person t = none ↔ is_explicit_person_reference t = false) := by
  have hd12 : ∀ w ∈ second_reference_words, w ∉ first_reference_words := by decide
  have hd13 : ∀ w ∈ third_reference_words, w ∉ first_reference_words := by decide
  have hd23 : ∀ w ∈ third_reference_words, w ∉ second_reference_words := by decide
  by_cases h1 : lowerString t ∈ first_reference_words
  · have h2 : lowerString t ∉ second_reference_words := fun hh => hd12 _ hh h1
    have h3 : lowerString t ∉ third_reference_words := fun hh => hd13 _ hh h1
    have hgp : get_grammatical_person t = some 1 := by
      simp [get_grammatical_person, h1]
    refine ⟨?_, ?_, fun _ => hgp, fun hh => absurd hh h2, fun hh => absurd hh h3, ?_⟩
    · simp [is_explicit_person_reference, h1, hgp]
    · intro n hn
      rw [hgp] at hn
      injection hn with hn2
      exact Or.inl hn2.symm
    · rw [hgp]
      simp [is_explicit_person_reference, h1]
  · by_cases h2 : lowerString t ∈ second_reference_words
    · have h3 : lowerString t ∉ third_reference_words := fun hh => hd23 _ hh h2
      have hgp : get_grammatical_person t = some 2 := by
        simp [get_grammatical_person, h1, h2]
      refine ⟨?_, ?_, fun hh => absurd hh h1, fun _ => hgp, fun hh => absurd hh h3, ?_⟩
      · simp [is_explicit_person_reference, h2, hgp]
      · intro n hn
        rw [hgp] at hn
        injection hn with hn2
        exact Or.inr (Or.inl hn2.symm)
      · rw [hgp]
        simp [is_explicit_person_reference, h2]
    · by_cases h3 : lowerString t ∈ third_reference_words
      · have hgp : get_grammatical_person t = some 3 := by
          simp [get_grammatical_person, h1, h2, h3]
        refine ⟨?_, ?_, fun hh => absurd hh h1, fun hh => absurd hh h2, fun _ => hgp, ?_⟩
        · simp [is_explicit_person_reference, h3, hgp]
        · intro n hn
          rw [hgp] at hn
          injection hn with hn2
          exact Or.inr (Or.inr hn2.symm)
        · rw [hgp]
          simp [is_explicit_person_reference, h3]
      · have hgp : get_grammatical_person t = none := by
          simp [get_grammatical_person, h1, h2, h3]
        refine ⟨?_, ?_, fun hh => absurd hh h1, fun hh => absurd hh h2, fun hh => absurd hh h3, ?_⟩
        · simp [is_explicit_person_reference, h1, h2, h3, hgp]
        · intro n hn
          rw [hgp] at hn
          exact Option.noConfusion hn
        · rw [hgp]
          simp [is_explicit_person_reference, h1, h2, h3]

/-- Witness for c10_person_reference at the token text "Me". -/
theorem c10_person_reference_witness :
    get_grammatical_person "Me" = some 1 ∧ is_explicit_person_reference "Me" = true := by
  have h := c10_person_reference "Me"
  refine ⟨h.2.2.1 (by decide), ?_⟩
  rw [h.1]
  rw [h.2.2.1 (by decide)]
  rfl

/-- Claim C2 is false as stated: the two adjacent sentences cA, cB carry the
same non-"None" speaker "A", yet the second one receives Turn_head "True"
(the second-sentence rule fires before the equal-speaker rule), and get_turns
raises IndexError on this input instead of returning turns containing the
pair. -/
theorem c2_counterexample :
    tag_speakers [cA, cB] false = Except.ok [cA1, cB1] ∧
    get_speaker cA1 = some "A" ∧ get_speaker cB1 = some "A" ∧
    tag_turns [cA1, cB1] false = Except.ok [cA2, cB2] ∧
    lookupFeature cB2.features "Turn_head" = some "True" ∧
    get_turns [cA, cB] false = Except.error PipeError.indexError :=
  ⟨rfl, rfl, rfl, rfl, rfl, rfl⟩

/-- Claim C2 (amended): whenever get_turns actually returns a turn list, any
two adjacent classified sentences with equal non-"None" speakers have the
second of the pair tagged Turn_head "False" and lie in one returned Turn.
(As stated the claim asserted unconditionally that the second of such a pair
never receives Turn_head "True"; that fails when the pair occupies the first
two positions - see c2_counterexample - in which case get_turns raises
instead of returning.) -/
theorem c2_same_turn_on_success (sents : List Sentence) (turns : List Turn)
    (t1 t2 : List Sentence) (a b : Sentence)
    (h : get_turns sents false = Except.ok turns)
    (h1 : tagSpeakersGo false "None" (sortSents sents) = Except.ok t1)
    (h2 : tagTurnsGo false none none t1 = Except.ok t2)
    (hadj : adjacentIn a b t2)
    (heq : get_speaker a = get_speaker b)
    (hnn : get_speaker a ≠ some "None") :
    lookupFeature b.features "Turn_head" = some "False" ∧
    ∃ t, t ∈ turns ∧ a ∈ t.sentences ∧ b ∈ t.sentences := by
  obtain ⟨t1x, t2x, hgo1, hgo2, hb, _, _, _, hsp2, hth2⟩ := get_turns_pipeline sents false turns h
  rw [h1] at hgo1
  injection hgo1 with e1
  subst e1
  rw [h2] at hgo2
  injection hgo2 with e2
  subst e2
  have hcons : headsConsistent none none t2 :=
    headsConsistent_of_maps t2 _ none none hsp2 hth2
  obtain ⟨u, v, huv⟩ := hadj
  cases u with
  | nil =>
      rw [huv] at hcons hb
      simp only [List.nil_append] at hcons hb
      rw [headsConsistent] at hcons
      obtain ⟨spka, hga, hfa, _⟩ := hcons
      have hnnA : spka ≠ "None" := by
        intro hx
        subst hx
        exact hnn hga
      have hfa2 : lookupFeature a.features "Turn_head" = some "True" := by
        rw [hfa]
        simp [specTurnHead, hnnA]
      have hhA : is_turn_head a = some true := by
        simp [is_turn_head, hfa2]
      simp [buildTurns, hhA, mkTurn] at hb
  | cons x u2 =>
      rw [huv] at hcons hb
      obtain ⟨qa, spka, spkb, hga, hgb, hfb, _, hqa⟩ :=
        headsConsistent_adj (x :: u2) none none a b v hcons
      obtain ⟨w, hw⟩ := hqa (by simp)
      subst hw
      rw [hga, hgb] at heq
      injection heq with heq2
      have hfb2 : lookupFeature b.features "Turn_head" = some "False" := by
        rw [hfb]
        by_cases hx : spkb = "None" <;> simp [specTurnHead, hx, heq2]
      have hhB : is_turn_head b = some false := by
        simp [is_turn_head, hfb2]
      exact ⟨hfb2, buildTurns_adj ((x :: u2) ++ a :: b :: v) [] [] turns hb a b
        ⟨x :: u2, v, rfl⟩ hhB⟩

/-- Witness for c2_same_turn_on_success: in the example transcript the
adjacent same-speaker pair exA2, exB2 has the second tagged "False" and ends
up inside the second turn. -/
theorem c2_same_turn_on_success_witness :
    lookupFeature exB2.features "Turn_head" = some "False" ∧
    ∃ t, t ∈ [exT1, exT2] ∧ exA2 ∈ t.sentences ∧ exB2 ∈ t.sentences :=
  c2_same_turn_on_success [exM, exA, exB] [exT1, exT2] [exM1, exA1, exB1]
    [exM2, exA2, exB2] exA2 exB2 rfl rfl rfl ⟨[exM2], [], rfl⟩ rfl (by decide)

/-- Claim C3 is false as stated: a first sentence with no colon and no media
reference is assigned speaker "None" and therefore Turn_head "False" (the
"None"-speaker rule precedes the first-sentence rule), not "True". -/
theorem c3_counterexample :
    tag_speakers [cH] false = Except.ok [cH1] ∧
    tag_turns [cH1] false = Except.ok [cH2] ∧
    lookupFeature cH2.features "Turn_head" = some "False" :=
  ⟨rfl, rfl, rfl⟩

/-- Claim C3 (amended): the first classified sentence receives Turn_head
"True" exactly when its assigned speaker is not "None", and whenever
get_turns returns a turn list on a non-empty input, the first document-order
sentence is the first sentence of the first returned Turn. -/
theorem c3_first_sentence (sents : List Sentence) (t1 t2 : List Sentence)
    (s0 : Sentence) (rest2 : List Sentence)
    (h1 : tagSpeakersGo false "None" (sortSents sents) = Except.ok t1)
    (h2 : tagTurnsGo false none none t1 = Except.ok t2)
    (hhead : t2 = s0 :: rest2) :
    (lookupFeature s0.features "Turn_head" = some "True" ↔
      ¬ get_speaker s0 = some "None") ∧
    ∀ turns, get_turns sents false = Except.ok turns →
      ∃ t0 ts, turns = t0 :: ts ∧ t0.sentences.head? = some s0 := by
  obtain ⟨_, hs1⟩ := tagSpeakersGo_spec false "None" (sortSents sents) t1 h1
  obtain ⟨hth2, hsp2, _⟩ :=
    tagTurnsGo_spec false t1 none none none none
      (specSpeakerScan "None" ((sortSents sents).map Sentence.text)) t2 rfl rfl hs1 h2
  have hcons : headsConsistent none none t2 :=
    headsConsistent_of_maps t2 _ none none hsp2 hth2
  rw [hhead, headsConsistent] at hcons
  obtain ⟨spk, hg, hf, _⟩ := hcons
  constructor
  · rw [hf, hg]
    by_cases hn : spk = "None"
    · subst hn
      simp [specTurnHead]
    · simp [specTurnHead, hn]
  · intro turns h
    obtain ⟨t1x, t2x, hgo1, hgo2, hb, _, _, _, _, _⟩ := get_turns_pipeline sents false turns h
    rw [h1] at hgo1
    injection hgo1 with e1
    subst e1
    rw [h2] at hgo2
    injection hgo2 with e2
    subst e2
    have hflat : (turns.map Turn.sentences).flatten = t2 := by
      have := buildTurns_flatten t2 [] [] turns hb
      simpa using this
    have hne : ∀ t ∈ turns, t.sentences ≠ [] :=
      buildTurns_nonempty t2 [] [] turns hb
        (fun t ht => absurd ht (List.not_mem_nil t))
    cases turns with
    | nil =>
        rw [hhead] at hflat
        simp at hflat
    | cons t0 ts =>
        refine ⟨t0, ts, rfl, ?_⟩
        have ht0 : t0.sentences ≠ [] := hne t0 (by simp)
        cases hts : t0.sentences with
        | nil => exact absurd hts ht0
        | cons x xs =>
            rw [hhead] at hflat
            simp only [List.map_cons, List.flatten_cons, hts, List.cons_append] at hflat
            injection hflat with e3 _
            rw [e3]
            rfl

/-- Witness for c3_first_sentence at the example transcript: the first
sentence is the media line, whose speaker is "None", and it opens the first
returned Turn. -/
theorem c3_first_sentence_witness :
    (lookupFeature exM2.features "Turn_head" = some "True" ↔
      ¬ get_speaker exM2 = some "None") ∧
    ∃ t0 ts, [exT1, exT2] = t0 :: ts ∧ t0.sentences.head? = some exM2 := by
  have h := c3_first_sentence [exM, exA, exB] [exM1, exA1, exB1]
    [exM2, exA2, exB2] exM2 [exA2, exB2] rfl rfl rfl
  exact ⟨h.1, h.2 [exT1, exT2] rfl⟩

/-- Claim C6: a sentence whose text contains one of the media file
extensions is assigned Speaker "None" by tag_speakers and Turn_head "False"
by tag_turns, whatever the surrounding sentences are (the input sequence and
the position are arbitrary), and a media sentence never changes the running
speaker state used for the following sentences. -/
theorem c6_media_exclusion (sents : List Sentence) (ov : Bool)
    (out1 out2 : List Sentence) (i : Nat) (s : Sentence)
    (h1 : tag_speakers sents ov = Except.ok out1)
    (h2 : tag_turns out1 ov = Except.ok out2)
    (hi : (sortSents sents)[i]? = some s)
    (hmed : isMediaRef s.text = true) :
    (∃ s1, out1[i]? = some s1 ∧ get_speaker s1 = some "None") ∧
    (∃ s2, out2[i]? = some s2 ∧ lookupFeature s2.features "Turn_head" = some "False") ∧
    (∀ tag txt rest, isMediaRef txt = true →
      specSpeakerScan tag (txt :: rest) = "None" :: specSpeakerScan tag rest) := by
  unfold tag_speakers at h1
  obtain ⟨hc1, hs1⟩ := tagSpeakersGo_spec ov "None" (sortSents sents) out1 h1
  have htext : ((sortSents sents).map Sentence.text)[i]? = some s.text := by
    rw [List.getElem?_map, hi]
    rfl
  have hscan := specSpeakerScan_media_at ((sortSents sents).map Sentence.text)
    "None" i s.text htext hmed
  have hsp1 : (out1.map get_speaker)[i]? = some (some "None") := by
    rw [hs1, List.getElem?_map, hscan]
    rfl
  obtain ⟨s1, hs1i, hs1v⟩ := map_at_some get_speaker out1 i (some "None") hsp1
  have hsorted1 : List.Sorted sentLE out1 :=
    sorted_of_map_core_eq hc1 (sorted_sortSents sents)
  have hgo2 : tagTurnsGo ov none none out1 = Except.ok out2 := by
    unfold tag_turns at h2
    rw [sortSents_eq_of_sorted hsorted1] at h2
    exact h2
  obtain ⟨hth2, _, _⟩ :=
    tagTurnsGo_spec ov out1 none none none none
      (specSpeakerScan "None" ((sortSents sents).map Sentence.text)) out2 rfl rfl hs1 hgo2
  have hflag := specTurnHeads_none_at
    (specSpeakerScan "None" ((sortSents sents).map Sentence.text)) none none i hscan
  have hth2i : (out2.map (fun s => lookupFeature s.features "Turn_head"))[i]? =
      some (some "False") := by
    rw [hth2, List.getElem?_map, hflag]
    rfl
  obtain ⟨s2, hs2i, hs2v⟩ := map_at_some _ out2 i (some "False") hth2i
  refine ⟨⟨s1, hs1i, hs1v⟩, ⟨s2, hs2i, hs2v⟩, ?_⟩
  intro tag txt rest hm
  simp [specSpeakerScan, hm]

/-- Witness for c6_media_exclusion at the example transcript: position 0 is
the media line x.mp3. -/
theorem c6_media_exclusion_witness :
    (∃ s1, [exM1, exA1, exB1][0]? = some s1 ∧ get_speaker s1 = some "None") ∧
    (∃ s2, [exM2, exA2, exB2][0]? = some s2 ∧
      lookupFeature s2.features "Turn_head" = some "False") ∧
    (∀ tag txt rest, isMediaRef txt = true →
      specSpeakerScan tag (txt :: rest) = "None" :: specSpeakerScan tag rest) :=
  c6_media_exclusion [exM, exA, exB] false [exM1, exA1, exB1] [exM2, exA2, exB2] 0 exM
    rfl rfl rfl rfl

/-- Claim C7: whenever get_turns returns turns, the concatenation of the
turns' sentence sequences in turn order is exactly the input sequence in
ascending start-offset order (projected through coreOf, since the pipeline
extends each sentence's feature map in place): no sentence is dropped or
duplicated.  When the input start offsets are distinct (sentences have
distinct identities), the final sentence.turn back reference of every
sentence of every returned Turn is exactly the Turn containing it. -/
theorem c7_turn_coverage (sents : List Sentence) (turns : List Turn)
    (h : get_turns sents false = Except.ok turns) :
    ((turns.map Turn.sentences).flatten).map coreOf = (sortSents sents).map coreOf ∧
    ((sents.map Sentence.start_node).Nodup →
      ∀ t ∈ turns, ∀ s ∈ t.sentences, turnOf turns s = some t) := by
  obtain ⟨t1, t2, hgo1, hgo2, hb, hc1, hc2, hs1, hsp2, hth2⟩ :=
    get_turns_pipeline sents false turns h
  have hflat : (turns.map Turn.sentences).flatten = t2 := by
    have := buildTurns_flatten t2 [] [] turns hb
    simpa using this
  constructor
  · rw [hflat, hc2]
  · intro hnd t ht s hs
    apply turnOf_eq turns s t ?_ ht hs
    rw [hflat]
    have he : t2.map Sentence.start_node = (sortSents sents).map Sentence.start_node :=
      map_start_of_map_core hc2
    have hperm : List.Perm ((sortSents sents).map Sentence.start_node)
        (sents.map Sentence.start_node) :=
      (List.perm_insertionSort sentLE sents).map Sentence.start_node
    have hnd2 : ((sortSents sents).map Sentence.start_node).Nodup :=
      hperm.nodup_iff.mpr hnd
    have hnd3 : (t2.map Sentence.start_node).Nodup := he ▸ hnd2
    exact hnd3.of_map

/-- Witness for c7_turn_coverage at the example transcript. -/
theorem c7_turn_coverage_witness :
    (([exT1, exT2].map Turn.sentences).flatten).map coreOf =
      (sortSents [exM, exA, exB]).map coreOf ∧
    turnOf [exT1, exT2] exA2 = some exT2 := by
  have h := c7_turn_coverage [exM, exA, exB] [exT1, exT2] rfl
  refine ⟨h.1, h.2 (by decide) exT2 (by simp) exA2 ?_⟩
  simp [exT2]
